import Mathlib

/-
Verification of the tp-tree-viewer core: event-to-tree reconstruction
(`transformTreeData`, `flattenTree`, `formatDuration`, `formatValue` from
src/utils/treeTransform.ts), the visibility projection (`visibleNodes` from
src/components/TreeView.tsx) and the performance aggregation
(`PerformanceAnalysis` from src/components/PerformanceAnalysis.tsx).

Modelling conventions:
- JS numbers (timestamps, durations) are rationals (`Rat`).
- The `id` field is `node-${index}`; since `index ↦ "node-" ++ toString index`
  is injective, ids are modelled as the bare index (`Nat`).
- JS values (`any` coming from JSON.parse) are the closed `Val` variant;
  strings inside `Val` are `List Char` so that the length accounting of
  `formatValue` is explicit.
- The source mutates node objects in place (children pushed into the parent's
  array, return data merged into the call node).  In the source, children are
  only ever appended to nodes still on the open-node stack, and a return merge
  only targets a node still on the stack (the pending-return index entry of a
  node is deleted the moment it is popped, and the stack holds at most one
  node per depth, since every node of depth >= d is popped before a node of
  depth d is pushed).  The model therefore carries the accumulated children on
  each open stack entry and freezes an entry into an immutable `Tree` exactly
  when the source pops it; at end of input the remaining open entries are
  flushed the same way.  This yields the same forest as the in-place version.
-/

namespace TPTree

/-- Event kinds of a trace event (`'call' | 'return' | 'call_return'` in
src/types.ts). -/
inductive EvKind where
  | call
  | ret
  | callReturn
deriving DecidableEq

/-- JSON-shaped runtime values (parameter values, return values).  JSON.parse
produces exactly null, booleans, numbers, strings, arrays and objects. -/
inductive Val where
  | vnull
  | vbool (b : Bool)
  | vnum (q : Rat)
  | vstr (s : List Char)
  | varr (elems : List Val)
  | vobj (entries : List (List Char × Val))

/-- One parameter record `{type, name, value}` (src/types.ts `Parameter`). -/
structure Param where
  ptype : String
  name : String
  value : Val

/-- A trace event (src/types.ts `TreeNodeData`). -/
structure Ev where
  event : EvKind
  method_name : String
  parameters : Option (List Param)
  return_value : Val
  depth : Nat
  defined_class : Option String
  path : Option String
  lineno : Option Nat
  start_time : Option Rat
  end_time : Option Rat
  duration : Option Rat

/-- The per-node display payload of a reconstructed node
(src/types.ts `TreeNodeDisplay` minus the `children` list and the weak
`parent` back-reference, which the tree structure itself represents). -/
structure NodeData where
  ev : Ev
  id : Nat
  isExpanded : Bool
  level : Nat

/-- A reconstructed call tree: display payload plus ordered children. -/
inductive Tree where
  | node (data : NodeData) (kids : List Tree)

/-- Root payload of a tree. -/
def rootD : Tree → NodeData
  | Tree.node d _ => d

/-- Association-list lookup, modelling JS object property read. -/
def lookupK {β : Type} : List (String × β) → String → Option β
  | [], _ => none
  | (k', v) :: t, k => if k' = k then some v else lookupK t k

/-- Association-list write, modelling `obj[k] = v` (overwrites in place,
otherwise appends; JS objects keep string keys in insertion order). -/
def insertK {β : Type} : List (String × β) → String → β → List (String × β)
  | [], k, v => [(k, v)]
  | (k', v') :: t, k, v => if k' = k then (k, v) :: t else (k', v') :: insertK t k v

/-- Association-list delete, modelling `delete obj[k]`. -/
def eraseK {β : Type} : List (String × β) → String → List (String × β)
  | [], _ => []
  | (k', v') :: t, k => if k' = k then t else (k', v') :: eraseK t k

/-- The call key `${depth}-${method_name}` used by the pending-return index. -/
def callKeyOf (depth : Nat) (m : String) : String :=
  toString depth ++ "-" ++ m

/-- The node built for a non-return event at position `i` of the event array:
`{...event, id: node-i, children: [], isExpanded: true, level: event.depth}`. -/
def mkNode (i : Nat) (e : Ev) : NodeData :=
  { ev := e, id := i, isExpanded := true, level := e.depth }

/-- Call key of an already-built node (computed from its own depth and
method name, as in the pop loop of `transformTreeData`). -/
def nodeKey (d : NodeData) : String :=
  callKeyOf d.ev.depth d.ev.method_name

/-- An open node: still on the stack, its children list still growing. -/
structure OpenNode where
  data : NodeData
  kids : List Tree

/-- State of the reconstruction pass: completed root trees (`nodes` in the
source), the open-node stack (head = top), and the pending-return index
(`callStack`). -/
structure TState where
  roots : List Tree
  stack : List OpenNode
  cs : List (String × Nat)

/-- Turn an optional pending tree into a list of trees. -/
def pendList : Option Tree → List Tree
  | some t => [t]
  | none => []

/-- The pop loop of `transformTreeData`: while the stack top has
`level >= lvl`, pop it, delete its call key from the pending-return index and
attach its finished tree to the next entry down (or record it as a completed
root when the stack empties).  `p` carries the tree popped in the previous
iteration, which belongs at the end of the current top's children. -/
def popGoing (lvl : Nat) :
    List OpenNode → Option Tree → List Tree → List (String × Nat) → TState
  | [], p, roots, cs => ⟨roots ++ pendList p, [], cs⟩
  | top :: rest, p, roots, cs =>
    let kids' := top.kids ++ pendList p
    if lvl ≤ top.data.level then
      popGoing lvl rest (some (Tree.node top.data kids')) roots
        (eraseK cs (nodeKey top.data))
    else ⟨roots, ⟨top.data, kids'⟩ :: rest, cs⟩

/-- Merge a return event into its call node:
`callNode.return_value = event.return_value; callNode.end_time = event.end_time;
callNode.duration = event.duration`. -/
def mergeRet (d : NodeData) (e : Ev) : NodeData :=
  { d with ev := { d.ev with
      return_value := e.return_value
      end_time := e.end_time
      duration := e.duration } }

/-- Process one event (the body of the `events.forEach` in
`transformTreeData`); `i` is the event's position in the array. -/
def procEv (s : TState) (i : Nat) (e : Ev) : TState :=
  match e.event with
  | EvKind.ret =>
    let k := callKeyOf e.depth e.method_name
    match lookupK s.cs k with
    | some targetId =>
      { roots := s.roots
        stack := s.stack.map fun o =>
          if o.data.id = targetId then ⟨mergeRet o.data e, o.kids⟩ else o
        cs := eraseK s.cs k }
    | none => s
  | _ =>
    let nd := mkNode i e
    let s' := popGoing e.depth s.stack none s.roots s.cs
    let cs' :=
      if e.event = EvKind.call then insertK s'.cs (callKeyOf e.depth e.method_name) nd.id
      else s'.cs
    { roots := s'.roots, stack := ⟨nd, []⟩ :: s'.stack, cs := cs' }

/-- Run the event pass from position `i` onwards. -/
def runFrom (s : TState) (i : Nat) : List Ev → TState
  | [] => s
  | e :: es => runFrom (procEv s i e) (i + 1) es

/-- Flush the stack at end of input: every still-open node is frozen into its
parent (or into the root list), mirroring that in the source those nodes
already sit inside the forest. -/
def flushState (s : TState) : TState :=
  popGoing 0 s.stack none s.roots s.cs

/-- `transformTreeData(events)`: reconstruct the forest from the flat event
list (src/utils/treeTransform.ts lines 439-495). -/
def transformTreeData (events : List Ev) : List Tree :=
  (flushState (runFrom ⟨[], [], []⟩ 0 events)).roots

mutual

/-- Pre-order payload collection of one tree (the `collectNodes` helper of
`PerformanceAnalysis`, which pushes every node then recurses into all
children unconditionally). -/
def collectT : Tree → List NodeData
  | Tree.node d cs => d :: collectTs cs

/-- Pre-order payload collection of a forest. -/
def collectTs : List Tree → List NodeData
  | [] => []
  | t :: ts => collectT t ++ collectTs ts

end

mutual

/-- `flattenTree`'s per-node step (src/utils/treeTransform.ts lines 497-511):
push the node, then traverse the children only when the node
`isExpanded` and has at least one child. -/
def flattenT : Tree → List NodeData
  | Tree.node d cs =>
    d :: (if d.isExpanded ∧ 0 < cs.length then flattenTs cs else [])

/-- `flattenTree` over a forest. -/
def flattenTs : List Tree → List NodeData
  | [] => []
  | t :: ts => flattenT t ++ flattenTs ts

end

-- ### Value and duration formatters (src/utils/treeTransform.ts) ###

/-- Hexadecimal digit character. -/
def hexDigit (n : Nat) : Char :=
  if n < 10 then Char.ofNat ('0'.toNat + n) else Char.ofNat ('a'.toNat + (n - 10))

/-- JSON.stringify escaping of a single string character. -/
def escChar (c : Char) : List Char :=
  if c = '"' then ['\\', '"']
  else if c = '\\' then ['\\', '\\']
  else if c = '\n' then ['\\', 'n']
  else if c = '\r' then ['\\', 'r']
  else if c = '\t' then ['\\', 't']
  else if c = '\x08' then ['\\', 'b']
  else if c = '\x0c' then ['\\', 'f']
  else if c.toNat < 32 then
    ['\\', 'u', '0', '0', hexDigit (c.toNat / 16), hexDigit (c.toNat % 16)]
  else [c]

/-- `JSON.stringify` of a string value: surrounding quotes plus escapes. -/
def jsonQuote (s : List Char) : List Char :=
  '"' :: (s.map escChar).flatten ++ ['"']

/-- JS `slice(0, e)` on a string: a negative end counts from the end of the
string (clamped at 0). -/
def jsSliceTo (l : List Char) (e : Int) : List Char :=
  if 0 ≤ e then l.take e.toNat else l.take (l.length - e.natAbs)

/-- Decimal digits of a natural number. -/
def natChars (n : Nat) : List Char := (toString n).data

/-- Rendering of a JS number by `String(value)`.  Integers render as their
decimal digits; the exact decimal rendering of non-integer doubles is not
modelled (no claim depends on it) and is shown as `num/den`. -/
def jsNumChars (q : Rat) : List Char :=
  if q.den = 1 then (toString q.num).data
  else (toString q.num).data ++ '/' :: (toString q.den).data

/-- `formatValue(value, maxLength)` (src/utils/treeTransform.ts lines
621-651): compact one-line rendering of a runtime value. -/
def formatValue (v : Val) (maxLength : Nat) : List Char :=
  match v with
  | Val.vnull => "nil".data
  | Val.vbool b => (if b then "true" else "false").data
  | Val.vnum q => jsNumChars q
  | Val.vstr s =>
    let quoted := jsonQuote s
    if maxLength < quoted.length then
      jsSliceTo quoted ((maxLength : Int) - 3) ++ "...\"".data
    else quoted
  | Val.varr [] => "[]".data
  | Val.varr [x] => '[' :: formatValue x 20 ++ [']']
  | Val.varr (x :: y :: rest) =>
    '[' :: formatValue x 15 ++ ", ... +".data ++ natChars (y :: rest).length
      ++ " more]".data
  | Val.vobj [] => ['\x7b', '\x7d']
  | Val.vobj [(k, x)] =>
    let formatted := '\x7b' :: k ++ ": ".data ++ formatValue x 20 ++ ['\x7d']
    if maxLength < formatted.length then '\x7b' :: k ++ ": ...".data ++ ['\x7d']
    else formatted
  | Val.vobj ((k, _) :: kv :: rest) =>
    '\x7b' :: k ++ ": ..., +".data ++ natChars (kv :: rest).length
      ++ " more".data ++ ['\x7d']

/-- Left-pad with zero digits to width `w`. -/
def padZeros (s : List Char) (w : Nat) : List Char :=
  List.replicate (w - s.length) '0' ++ s

/-- `Number.prototype.toFixed(digits)` on a rational: fixed-point decimal with
rounding half away from zero.  (On exact ties JS rounds according to the
binary double representation; no claim depends on tie behavior.) -/
def qToFixed (q : Rat) (digits : Nat) : String :=
  let scaled := q * ((10 : Rat) ^ digits)
  let r : Int := if 0 ≤ scaled then (scaled + 1/2).floor else -((-scaled + 1/2).floor)
  let n := r.natAbs
  (if r < 0 then "-" else "") ++ toString (n / 10 ^ digits) ++
    (if digits = 0 then ""
     else "." ++ String.mk (padZeros (toString (n % 10 ^ digits)).data digits))

/-- `formatDuration(duration)` (src/utils/treeTransform.ts lines 513-523):
empty string for a null duration, otherwise microseconds below 1ms,
milliseconds below 1s, seconds with 3 decimals otherwise. -/
def formatDuration : Option Rat → String
  | none => ""
  | some d =>
    if d < 1/1000 then qToFixed (d * 1000000) 1 ++ "μs"
    else if d < 1 then qToFixed (d * 1000) 1 ++ "ms"
    else qToFixed d 3 ++ "s"

-- ### Visibility projection (src/components/TreeView.tsx) ###

/-- `toLowerCase` on the character list of a string (ASCII case folding;
the claims never depend on locale-specific Unicode case rules). -/
def lowerChars (s : String) : List Char := s.data.map Char.toLower

/-- Does `l` start with `p`? -/
def startsWithL : List Char → List Char → Bool
  | _, [] => true
  | [], _ :: _ => false
  | a :: as, b :: bs => a == b && startsWithL as bs

/-- JS `String.prototype.includes`: does `l` contain `sub` as a contiguous
substring?  The empty string is contained in everything. -/
def containsSub : List Char → List Char → Bool
  | _, [] => true
  | [], _ :: _ => false
  | a :: as, b :: bs => startsWithL (a :: as) (b :: bs) || containsSub as (b :: bs)

/-- The `matchesSearch` condition of `visibleNodes` (TreeView.tsx lines
44-46): an empty search term matches everything, otherwise the lowered
method name or the lowered defined class must contain the lowered term. -/
def matchesSearch (searchTerm : String) (d : NodeData) : Bool :=
  searchTerm.data.isEmpty
    || containsSub (lowerChars d.ev.method_name) (lowerChars searchTerm)
    || (match d.ev.defined_class with
        | some c => containsSub (lowerChars c) (lowerChars searchTerm)
        | none => false)

mutual

/-- The per-node step of the `traverse` closure inside `visibleNodes`
(TreeView.tsx lines 42-56): emit the node unless `showOnlyFiltered` hides a
non-match, then recurse into the children only when the node's id is in the
expanded set and there is at least one child. -/
def visT (expanded : List Nat) (searchTerm : String) (filteredOnly : Bool) :
    Tree → List NodeData
  | Tree.node d cs =>
    (if !filteredOnly || matchesSearch searchTerm d then [d] else []) ++
    (if expanded.contains d.id ∧ 0 < cs.length then
      visTs expanded searchTerm filteredOnly cs
    else [])

/-- `visibleNodes`' traversal over a list of sibling trees. -/
def visTs (expanded : List Nat) (searchTerm : String) (filteredOnly : Bool) :
    List Tree → List NodeData
  | [] => []
  | t :: ts =>
    visT expanded searchTerm filteredOnly t ++ visTs expanded searchTerm filteredOnly ts

end

/-- `visibleNodes` (TreeView.tsx lines 38-60): the expansion- and
search-aware visible projection of the forest. -/
def visibleNodes (data : List Tree) (expanded : List Nat) (searchTerm : String)
    (filteredOnly : Bool) : List NodeData :=
  visTs expanded searchTerm filteredOnly data

/-- Case-insensitive containment, spec wording. -/
def ciContains (s sub : String) : Bool :=
  containsSub (lowerChars s) (lowerChars sub)

/-- Case-insensitive containment on an optional string, spec wording. -/
def ciContainsOpt : Option String → String → Bool
  | some c, sub => ciContains c sub
  | none, _ => false

mutual

/-- Spec-side visibility projection, written from the claim's words: a node
is emitted iff `filteredOnly` is false or its method name or defined class
case-insensitively contains the search string (the empty search matching
every node), and a node's children are traversed iff its id is in the
expanded set. -/
def visSpecT (expanded : List Nat) (searchTerm : String) (filteredOnly : Bool) :
    Tree → List NodeData
  | Tree.node d cs =>
    (if filteredOnly = false ∨ ciContains d.ev.method_name searchTerm
        ∨ ciContainsOpt d.ev.defined_class searchTerm then [d] else []) ++
    (if expanded.contains d.id then visSpecTs expanded searchTerm filteredOnly cs
     else [])

/-- Spec-side visibility projection over sibling trees. -/
def visSpecTs (expanded : List Nat) (searchTerm : String) (filteredOnly : Bool) :
    List Tree → List NodeData
  | [] => []
  | t :: ts =>
    visSpecT expanded searchTerm filteredOnly t
      ++ visSpecTs expanded searchTerm filteredOnly ts

end

-- ### Performance aggregation (src/components/PerformanceAnalysis.tsx) ###

/-- One aggregated per-method record (`MethodStats` in
PerformanceAnalysis.tsx).  `min_time = none` models the `Infinity` initial
sentinel, replaced by 0 in the finalize pass exactly as in the source. -/
structure MethodStats where
  method_name : String
  class_name : Option String
  total_time : Rat
  call_count : Nat
  average_time : Rat
  max_time : Rat
  min_time : Option Rat
  node_ids : List Nat
deriving DecidableEq

/-- The grouping key `${defined_class || 'Unknown'}#${method_name}`; an
absent or empty class name is falsy in JS and becomes `Unknown`. -/
def statKey (n : NodeData) : String :=
  (match n.ev.defined_class with
   | some c => if c = "" then "Unknown" else c
   | none => "Unknown") ++ "#" ++ n.ev.method_name

/-- A freshly created group record (PerformanceAnalysis.tsx lines 42-53). -/
def freshStats (n : NodeData) : MethodStats :=
  { method_name := n.ev.method_name
    class_name := n.ev.defined_class
    total_time := 0
    call_count := 0
    average_time := 0
    max_time := 0
    min_time := none
    node_ids := [] }

/-- Accumulate one qualifying call into its group record
(PerformanceAnalysis.tsx lines 55-60). -/
def addCall (st : MethodStats) (n : NodeData) (dur : Rat) : MethodStats :=
  { st with
    total_time := st.total_time + dur
    call_count := st.call_count + 1
    max_time := max st.max_time dur
    min_time := some (match st.min_time with | none => dur | some m => min m dur)
    node_ids := st.node_ids ++ [n.id] }

/-- The duration of a node if it qualifies for grouping:
`if (!node.duration || node.duration <= 0) return;` keeps exactly the
present, positive durations. -/
def qualDur (n : NodeData) : Option Rat :=
  match n.ev.duration with
  | some dur => if 0 < dur then some dur else none
  | none => none

/-- Process one flattened node of the `allNodes.forEach` grouping loop. -/
def statStep (acc : List (String × MethodStats)) (n : NodeData) :
    List (String × MethodStats) :=
  match qualDur n with
  | none => acc
  | some dur =>
    let k := statKey n
    insertK acc k (addCall ((lookupK acc k).getD (freshStats n)) n dur)

/-- The finalize pass (PerformanceAnalysis.tsx lines 63-67): compute the
average and replace an untouched `Infinity` minimum by 0.  A group always has
`call_count ≥ 1` (groups are created lazily on the first qualifying call), so
the division is never by zero on reachable inputs. -/
def finalizeStats (l : List (String × MethodStats)) :
    List (String × MethodStats) :=
  l.map fun p =>
    (p.1, { p.2 with
      average_time := p.2.total_time / (p.2.call_count : Rat)
      min_time := some (p.2.min_time.getD 0) })

/-- The grouped per-method statistics of the whole (pre-order flattened)
forest, keyed by `statKey`, in first-encountered order. -/
def methodStats (forest : List Tree) : List (String × MethodStats) :=
  finalizeStats ((collectTs forest).foldl statStep [])

/-- `byTotalTime` before the `.slice(0, 10)` truncation: all group records
sorted by descending total time (JS `Array.prototype.sort` is stable; the
comparator is `b.total_time - a.total_time`). -/
def byTotalTimeFull (forest : List Tree) : List MethodStats :=
  ((methodStats forest).map Prod.snd).mergeSort fun a b =>
    decide (b.total_time ≤ a.total_time)

/-- `byTotalTime`: the top 10 groups by total time. -/
def byTotalTime (forest : List Tree) : List MethodStats :=
  (byTotalTimeFull forest).take 10

/-- `totalTime`: sum of `duration || 0` over all flattened nodes
(PerformanceAnalysis.tsx line 88). -/
def totalTime (forest : List Tree) : Rat :=
  (collectTs forest).foldl (fun sum n => sum + n.ev.duration.getD 0) 0

/-- `totalCalls`: the number of all flattened nodes. -/
def totalCalls (forest : List Tree) : Nat :=
  (collectTs forest).length

-- ### Observers used to state the claims ###

/-- The qualifying members of one group, with their durations, among a
flattened node list: exactly the nodes with a present positive duration whose
`statKey` is `k`, in order. -/
def groupNodes (ns : List NodeData) (k : String) : List (NodeData × Rat) :=
  ns.filterMap fun n =>
    match qualDur n with
    | some dur => if statKey n = k then some (n, dur) else none
    | none => none

/-- The duration list of one group of the aggregated forest. -/
def groupDurs (forest : List Tree) (k : String) : List Rat :=
  (groupNodes (collectTs forest) k).map Prod.snd

/-- Sum of the `total_time` fields of a list of group records. -/
def sumTotals (l : List MethodStats) : Rat :=
  (l.map MethodStats.total_time).sum

/-- Sum of the `total_time` fields over a keyed stats accumulator. -/
def valueTotals (acc : List (String × MethodStats)) : Rat :=
  (acc.map fun p => p.2.total_time).sum

/-- Fold the members of one group into an optional accumulated record, the
way the grouping loop treats the entries at a fixed key. -/
def accGroup (init : Option MethodStats) (l : List (NodeData × Rat)) :
    Option MethodStats :=
  l.foldl (fun o p => some (addCall (o.getD (freshStats p.1)) p.1 p.2)) init

/-- Everything about a node that a return merge does not change: its event
with the three merged fields blanked, plus id, expansion flag and level. -/
def stableView (d : NodeData) : Ev × Nat × Bool × Nat :=
  ({ d.ev with return_value := Val.vnull, end_time := none, duration := none },
   d.id, d.isExpanded, d.level)

/-- The `(method_name, depth)` pair of a node. -/
def pairOfD (d : NodeData) : String × Nat := (d.ev.method_name, d.ev.depth)

/-- The nodes created by the reconstruction pass, in creation order: one per
non-return event, carrying the event's position as id. -/
def createdFrom (i : Nat) : List Ev → List NodeData
  | [] => []
  | e :: es =>
    if e.event = EvKind.ret then createdFrom (i + 1) es
    else mkNode i e :: createdFrom (i + 1) es

/-- The eventual pre-order contribution of the open-node stack (head = top):
each open node will close as the last child of the entry below it, so the
bottom entry's payload comes first and the top entry's payload last. -/
def stackFlat : List OpenNode → List NodeData
  | [] => []
  | o :: rest => stackFlat rest ++ o.data :: collectTs o.kids

/-- The eventual pre-order node list of a reconstruction state. -/
def stateFlat (s : TState) : List NodeData :=
  collectTs s.roots ++ stackFlat s.stack

/-- Perfectly nested, matched call/return sequences at ambient depth `d`:
a (possibly empty) list of blocks, each a `call` at depth `d`, a nested body
at depth `d + 1`, and the matching `return` at depth `d` with the same
method name. -/
inductive WellNested : Nat → List Ev → Prop where
  | nil : ∀ d, WellNested d []
  | block : ∀ (d : Nat) (c r : Ev) (body rest : List Ev),
      c.event = EvKind.call → r.event = EvKind.ret →
      c.depth = d → r.depth = d → r.method_name = c.method_name →
      WellNested (d + 1) body → WellNested d rest →
      WellNested d (c :: body ++ r :: rest)

mutual

/-- Hereditary parent/child relation check: every child's root payload is
`R`-related to the parent's payload, recursively. -/
def heredT (R : NodeData → NodeData → Bool) : Tree → Bool
  | Tree.node d cs => cs.all (fun c => R d (rootD c)) && heredTs R cs

/-- Hereditary parent/child relation check over a forest. -/
def heredTs (R : NodeData → NodeData → Bool) : List Tree → Bool
  | [] => true
  | t :: ts => heredT R t && heredTs R ts

end

/-- The C9 relation: a child has strictly greater level than its parent. -/
def levelLt (p c : NodeData) : Bool := decide (p.level < c.level)

/-- Parent/child relation tracked by the reconstruction invariant: the child
has strictly greater level and strictly greater id (created later). -/
def bothLt (p c : NodeData) : Bool :=
  decide (p.level < c.level) && decide (p.id < c.id)

mutual

/-- Pre-order list of `(id, number of children)` pairs of a tree; observer
used to state child-count properties. -/
def kidCountT : Tree → List (Nat × Nat)
  | Tree.node d cs => (d.id, cs.length) :: kidCountTs cs

/-- Pre-order `(id, number of children)` pairs of a forest. -/
def kidCountTs : List Tree → List (Nat × Nat)
  | [] => []
  | t :: ts => kidCountT t ++ kidCountTs ts

end

/-- A bare event with the given kind, method name and depth; all optional
payload fields absent. -/
def mkEv (k : EvKind) (m : String) (d : Nat) : Ev :=
  { event := k
    method_name := m
    parameters := none
    return_value := Val.vnull
    depth := d
    defined_class := none
    path := none
    lineno := none
    start_time := none
    end_time := none
    duration := none }

/-- A flattened leaf node of class `C`, method `m`, with the given duration:
the raw material of claim C5's example scenario. -/
def demoNode (i : Nat) (dur : Rat) : NodeData :=
  { ev := { mkEv EvKind.callReturn "m" 0 with
      defined_class := some "C"
      duration := some dur }
    id := i
    isExpanded := true
    level := 0 }

/-- A forest of three such leaves with durations 1, 2 and 3. -/
def demoForest : List Tree :=
  [Tree.node (demoNode 0 1) [], Tree.node (demoNode 1 2) [],
   Tree.node (demoNode 2 3) []]

/-- The Method Stat that claim C5's example scenario expects for `C#m`. -/
def demoStat : MethodStats :=
  { method_name := "m"
    class_name := some "C"
    total_time := 6
    call_count := 3
    average_time := 2
    max_time := 3
    min_time := some 1
    node_ids := [0, 1, 2] }

-- ### Basic lemmas about the association-list operations ###

theorem lookupK_insertK_self {β : Type} (l : List (String × β)) (k : String) (v : β) :
    lookupK (insertK l k v) k = some v := by
  induction l with
  | nil => simp [insertK, lookupK]
  | cons p t ih =>
    by_cases h : p.1 = k
    · simp [insertK, h, lookupK]
    · simp [insertK, h, lookupK, ih]

theorem procEv_ret_none (s : TState) (i : Nat) (e : Ev)
    (hret : e.event = EvKind.ret)
    (hnone : lookupK s.cs (callKeyOf e.depth e.method_name) = none) :
    procEv s i e = s := by
  simp [procEv, hret, hnone]

theorem procEv_ret_found (s : TState) (i : Nat) (e : Ev) (tid : Nat)
    (hret : e.event = EvKind.ret)
    (hfound : lookupK s.cs (callKeyOf e.depth e.method_name) = some tid) :
    procEv s i e =
      { roots := s.roots
        stack := s.stack.map fun o =>
          if o.data.id = tid then ⟨mergeRet o.data e, o.kids⟩ else o
        cs := eraseK s.cs (callKeyOf e.depth e.method_name) } := by
  simp [procEv, hret, hfound]

theorem runFrom_append (es fs : List Ev) :
    ∀ (s : TState) (i : Nat),
      runFrom s i (es ++ fs) = runFrom (runFrom s i es) (i + es.length) fs := by
  induction es with
  | nil => intro s i; simp [runFrom]
  | cons e t ih =>
    intro s i
    have h : i + 1 + t.length = i + (t.length + 1) := by omega
    simp only [List.cons_append, runFrom, List.append_eq, ih, List.length_cons, h]

-- ### Lemmas for the aggregator ###

theorem lookupK_insertK_ne {β : Type} (l : List (String × β)) (k' k : String)
    (v : β) (h : k' ≠ k) : lookupK (insertK l k' v) k = lookupK l k := by
  induction l with
  | nil => simp [insertK, lookupK, h]
  | cons p t ih =>
    by_cases hp : p.1 = k'
    · simp [insertK, hp, lookupK, h]
    · simp [insertK, hp, lookupK, ih]

theorem lookupK_map_snd {β γ : Type} (l : List (String × β)) (g : β → γ)
    (k : String) :
    lookupK (l.map fun p => (p.1, g p.2)) k = (lookupK l k).map g := by
  induction l with
  | nil => simp [lookupK]
  | cons p t ih =>
    by_cases hp : p.1 = k
    · simp [lookupK, hp]
    · simp [lookupK, hp, ih]

theorem groupNodes_nil (k : String) : groupNodes [] k = [] := rfl

theorem groupNodes_cons_none (n : NodeData) (t : List NodeData) (k : String)
    (hq : qualDur n = none) : groupNodes (n :: t) k = groupNodes t k := by
  simp [groupNodes, List.filterMap_cons, hq]

theorem groupNodes_cons_mem (n : NodeData) (t : List NodeData) (k : String)
    (dur : Rat) (hq : qualDur n = some dur) (hk : statKey n = k) :
    groupNodes (n :: t) k = (n, dur) :: groupNodes t k := by
  simp [groupNodes, List.filterMap_cons, hq, hk]

theorem groupNodes_cons_ne (n : NodeData) (t : List NodeData) (k : String)
    (dur : Rat) (hq : qualDur n = some dur) (hk : ¬statKey n = k) :
    groupNodes (n :: t) k = groupNodes t k := by
  simp [groupNodes, List.filterMap_cons, hq, hk]

theorem qualDur_pos (n : NodeData) (dur : Rat) (hq : qualDur n = some dur) :
    0 < dur := by
  cases hd : n.ev.duration with
  | none => simp [qualDur, hd] at hq
  | some d0 =>
    by_cases h0 : 0 < d0
    · have : d0 = dur := by simpa [qualDur, hd, h0] using hq
      subst this
      exact h0
    · simp [qualDur, hd, h0] at hq

theorem groupNodes_pos (ns : List NodeData) (k : String) :
    ∀ p ∈ groupNodes ns k, 0 < p.2 := by
  induction ns with
  | nil => simp [groupNodes_nil]
  | cons n t ih =>
    intro p hp
    cases hq : qualDur n with
    | none =>
      rw [groupNodes_cons_none _ _ _ hq] at hp
      exact ih p hp
    | some dur =>
      by_cases hk : statKey n = k
      · rw [groupNodes_cons_mem _ _ _ _ hq hk] at hp
        rcases List.mem_cons.1 hp with hp | hp
        · subst hp
          exact qualDur_pos n dur hq
        · exact ih p hp
      · rw [groupNodes_cons_ne _ _ _ _ hq hk] at hp
        exact ih p hp

theorem lookupK_foldl_statStep (ns : List NodeData) :
    ∀ (acc : List (String × MethodStats)) (k : String),
      lookupK (ns.foldl statStep acc) k =
        accGroup (lookupK acc k) (groupNodes ns k) := by
  induction ns with
  | nil => intro acc k; simp [groupNodes_nil, accGroup]
  | cons n t ih =>
    intro acc k
    rw [List.foldl_cons]
    cases hq : qualDur n with
    | none =>
      have hstep : statStep acc n = acc := by simp [statStep, hq]
      rw [hstep, ih, groupNodes_cons_none _ _ _ hq]
    | some dur =>
      have hstep : statStep acc n =
          insertK acc (statKey n)
            (addCall ((lookupK acc (statKey n)).getD (freshStats n)) n dur) := by
        simp [statStep, hq]
      by_cases hk : statKey n = k
      · subst hk
        rw [groupNodes_cons_mem _ _ _ _ hq rfl, hstep, ih, lookupK_insertK_self]
        simp [accGroup]
      · rw [groupNodes_cons_ne _ _ _ _ hq hk, hstep, ih]
        rw [lookupK_insertK_ne _ _ _ _ hk]

theorem accGroup_some (l : List (NodeData × Rat)) :
    ∀ st, accGroup (some st) l =
      some (l.foldl (fun st p => addCall st p.1 p.2) st) := by
  induction l with
  | nil => intro st; simp [accGroup]
  | cons p t ih => intro st; simp [accGroup] at ih ⊢; exact ih _

theorem foldl_addCall_stats (l : List (NodeData × Rat)) :
    ∀ (st : MethodStats) (D : List Rat),
      st.total_time = D.sum → st.call_count = D.length →
      st.max_time ∈ D → (∀ x ∈ D, x ≤ st.max_time) →
      (∃ m, st.min_time = some m ∧ m ∈ D ∧ ∀ x ∈ D, m ≤ x) →
      (l.foldl (fun st p => addCall st p.1 p.2) st).total_time
          = (D ++ l.map Prod.snd).sum ∧
      (l.foldl (fun st p => addCall st p.1 p.2) st).call_count
          = (D ++ l.map Prod.snd).length ∧
      (l.foldl (fun st p => addCall st p.1 p.2) st).max_time
          ∈ D ++ l.map Prod.snd ∧
      (∀ x ∈ D ++ l.map Prod.snd,
        x ≤ (l.foldl (fun st p => addCall st p.1 p.2) st).max_time) ∧
      (∃ m, (l.foldl (fun st p => addCall st p.1 p.2) st).min_time = some m ∧
        m ∈ D ++ l.map Prod.snd ∧ ∀ x ∈ D ++ l.map Prod.snd, m ≤ x) := by
  induction l with
  | nil =>
    intro st D h1 h2 h3 h4 h5
    simpa using ⟨h1, h2, h3, h4, h5⟩
  | cons p t ih =>
    intro st D h1 h2 h3 h4 h5
    rw [List.foldl_cons]
    obtain ⟨m, hm, hmD, hmle⟩ := h5
    have step := ih (addCall st p.1 p.2) (D ++ [p.2])
      (by simp [addCall, h1])
      (by simp [addCall, h2])
      (by
        simp only [addCall]
        rcases max_choice st.max_time p.2 with hmx | hmx <;> rw [hmx]
        · exact List.mem_append_left _ h3
        · exact List.mem_append_right _ (by simp))
      (by
        intro x hx
        simp only [addCall]
        rcases List.mem_append.1 hx with hx | hx
        · exact le_trans (h4 x hx) (le_max_left _ _)
        · simp only [List.mem_singleton] at hx
          subst hx
          exact le_max_right _ _)
      (by
        refine ⟨min m p.2, by simp [addCall, hm], ?_, ?_⟩
        · rcases min_choice m p.2 with hmn | hmn <;> rw [hmn]
          · exact List.mem_append_left _ hmD
          · exact List.mem_append_right _ (by simp)
        · intro x hx
          rcases List.mem_append.1 hx with hx | hx
          · exact le_trans (min_le_left _ _) (hmle x hx)
          · simp only [List.mem_singleton] at hx
            subst hx
            exact min_le_right _ _)
    have heq : (D ++ [p.2]) ++ t.map Prod.snd = D ++ (p :: t).map Prod.snd := by
      simp
    rw [heq] at step
    exact step

theorem valueTotals_statStep (acc : List (String × MethodStats)) (n : NodeData) :
    valueTotals (statStep acc n) = valueTotals acc + (qualDur n).getD 0 := by
  cases hq : qualDur n with
  | none => simp [statStep, hq]
  | some dur =>
    have hins : ∀ (l : List (String × MethodStats)),
        valueTotals (insertK l (statKey n)
          (addCall ((lookupK l (statKey n)).getD (freshStats n)) n dur))
          = valueTotals l + dur := by
      intro l
      induction l with
      | nil => simp [insertK, lookupK, valueTotals, addCall, freshStats]
      | cons p t ih =>
        obtain ⟨pk, pv⟩ := p
        by_cases hp : pk = statKey n
        · subst hp
          simp only [insertK, lookupK, if_pos rfl, if_true, eq_self_iff_true,
            Option.getD_some, valueTotals, List.map_cons, List.sum_cons, addCall]
          ring
        · simp only [insertK, lookupK, if_neg hp, valueTotals, List.map_cons,
            List.sum_cons] at ih ⊢
          rw [ih]
          ring
    simp only [statStep, hq, hins, Option.getD_some]

theorem valueTotals_foldl (ns : List NodeData) :
    ∀ acc, valueTotals (ns.foldl statStep acc)
      = valueTotals acc + (ns.map fun n => (qualDur n).getD 0).sum := by
  induction ns with
  | nil => intro acc; simp
  | cons n t ih =>
    intro acc
    rw [List.foldl_cons, ih, valueTotals_statStep]
    simp [add_assoc]

theorem valueTotals_finalize (l : List (String × MethodStats)) :
    valueTotals (finalizeStats l) = valueTotals l := by
  unfold valueTotals finalizeStats
  rw [List.map_map]
  rfl

theorem sumTotals_map_snd (l : List (String × MethodStats)) :
    sumTotals (l.map Prod.snd) = valueTotals l := by
  unfold sumTotals valueTotals
  rw [List.map_map]
  rfl

theorem foldl_add_getD (l : List NodeData) :
    ∀ (a : Rat), l.foldl (fun acc n => acc + n.ev.duration.getD 0) a
      = a + (l.map fun n => n.ev.duration.getD 0).sum := by
  induction l with
  | nil => intro a; simp
  | cons n t ih =>
    intro a
    rw [List.foldl_cons, ih]
    simp [add_assoc]

theorem lookupK_finalize (l : List (String × MethodStats)) (k : String) :
    lookupK (finalizeStats l) k = (lookupK l k).map fun st =>
      { st with
        average_time := st.total_time / (st.call_count : Rat)
        min_time := some (st.min_time.getD 0) } := by
  unfold finalizeStats
  exact lookupK_map_snd l
    (fun st => { st with
      average_time := st.total_time / (st.call_count : Rat)
      min_time := some (st.min_time.getD 0) }) k

-- ### Lemmas for the visibility projection ###

theorem containsSub_nil (l : List Char) : containsSub l [] = true := by
  cases l <;> rfl

theorem matchesSearch_eq (search : String) (d : NodeData) :
    matchesSearch search d =
      (ciContains d.ev.method_name search
        || ciContainsOpt d.ev.defined_class search) := by
  cases hc : d.ev.defined_class with
  | none =>
    cases hs : search.data with
    | nil =>
      simp [matchesSearch, ciContains, ciContainsOpt, lowerChars, hs, hc,
        containsSub_nil]
    | cons a as =>
      simp [matchesSearch, ciContains, ciContainsOpt, lowerChars, hs, hc]
  | some c =>
    cases hs : search.data with
    | nil =>
      simp [matchesSearch, ciContains, ciContainsOpt, lowerChars, hs, hc,
        containsSub_nil]
    | cons a as =>
      simp [matchesSearch, ciContains, ciContainsOpt, lowerChars, hs, hc]

mutual

theorem visT_eq_spec (expanded : List Nat) (search : String) (fo : Bool) :
    ∀ t, visT expanded search fo t = visSpecT expanded search fo t
  | Tree.node d cs => by
    have hk : visTs expanded search fo cs = visSpecTs expanded search fo cs :=
      visTs_eq_spec expanded search fo cs
    rw [visT, visSpecT]
    refine congrArg₂ (· ++ ·) ?_ ?_
    · by_cases h : (fo = false ∨ ciContains d.ev.method_name search = true
          ∨ ciContainsOpt d.ev.defined_class search = true)
      · rw [if_pos h, if_pos]
        rw [matchesSearch_eq]
        rcases h with h | h | h <;> simp [h]
      · rw [if_neg h, if_neg]
        push_neg at h
        rw [matchesSearch_eq]
        simp [h.1, h.2.1, h.2.2]
    · cases cs with
      | nil =>
        rw [visSpecTs]
        simp
      | cons c cs' =>
        rw [hk]
        exact if_congr (and_iff_left (Nat.succ_pos _)) rfl rfl

theorem visTs_eq_spec (expanded : List Nat) (search : String) (fo : Bool) :
    ∀ ts, visTs expanded search fo ts = visSpecTs expanded search fo ts
  | [] => rfl
  | t :: ts => by
    rw [visTs, visSpecTs, visT_eq_spec expanded search fo t,
      visTs_eq_spec expanded search fo ts]

end

-- ### Claim C3 ###

/-- C3: for every forest, expanded id set, search string and `filteredOnly`
flag, the visibility projection (`visibleNodes`) is exactly the depth-first
traversal in which a node is emitted iff `filteredOnly` is false or the
node's method name or defined class case-insensitively contains the search
string (the empty search matching every node), and a node's children are
traversed iff its id is in the expanded set — so a collapsed node's
descendants are absent from the output even when they match the search
(`visSpecTs` is written from the claim's words and traverses children solely
by expansion). -/
theorem visibleNodes_eq_spec (data : List Tree) (expanded : List Nat)
    (search : String) (fo : Bool) :
    visibleNodes data expanded search fo = visSpecTs expanded search fo data :=
  visTs_eq_spec expanded search fo data

-- ### Claim C5 ###

/-- C5: every group of the aggregator's output — nodes sharing the key
`defined_class-or-Unknown # method_name`, restricted to nodes with a present
positive duration — satisfies: `total_time` is the sum of the group's
durations, `call_count` their number, `average_time` their sum divided by
their count, `max_time` the maximum duration and `min_time` the minimum
duration of the group (and the group is nonempty, since groups are created
lazily on the first qualifying call). -/
theorem method_stats_per_group (forest : List Tree) (k : String)
    (s : MethodStats) (h : lookupK (methodStats forest) k = some s) :
    groupDurs forest k ≠ [] ∧
    s.total_time = (groupDurs forest k).sum ∧
    s.call_count = (groupDurs forest k).length ∧
    s.average_time = (groupDurs forest k).sum / ((groupDurs forest k).length : Rat) ∧
    (s.max_time ∈ groupDurs forest k ∧ ∀ x ∈ groupDurs forest k, x ≤ s.max_time) ∧
    ∃ m, s.min_time = some m ∧ m ∈ groupDurs forest k ∧
      ∀ x ∈ groupDurs forest k, m ≤ x := by
  unfold methodStats at h
  rw [lookupK_finalize, lookupK_foldl_statStep] at h
  simp only [lookupK] at h
  cases hg : groupNodes (collectTs forest) k with
  | nil =>
    rw [hg] at h
    simp [accGroup] at h
  | cons q qs =>
    rw [hg] at h
    have hq2 : 0 < q.2 :=
      groupNodes_pos (collectTs forest) k q
        (by rw [hg]; exact List.mem_cons_self q qs)
    have hstep0 : accGroup none (q :: qs) =
        some (qs.foldl (fun st p => addCall st p.1 p.2)
          (addCall (freshStats q.1) q.1 q.2)) := by
      rw [show accGroup none (q :: qs)
          = accGroup (some (addCall (freshStats q.1) q.1 q.2)) qs from by
        simp [accGroup]]
      exact accGroup_some qs _
    rw [hstep0, Option.map_some'] at h
    have hs : s = { qs.foldl (fun st p => addCall st p.1 p.2)
          (addCall (freshStats q.1) q.1 q.2) with
        average_time :=
          (qs.foldl (fun st p => addCall st p.1 p.2)
            (addCall (freshStats q.1) q.1 q.2)).total_time /
          ((qs.foldl (fun st p => addCall st p.1 p.2)
            (addCall (freshStats q.1) q.1 q.2)).call_count : Rat)
        min_time := some ((qs.foldl (fun st p => addCall st p.1 p.2)
          (addCall (freshStats q.1) q.1 q.2)).min_time.getD 0) } :=
      (Option.some.inj h).symm
    have main := foldl_addCall_stats qs (addCall (freshStats q.1) q.1 q.2) [q.2]
      (by simp [addCall, freshStats])
      (by simp [addCall, freshStats])
      (by simp [addCall, freshStats, max_eq_right hq2.le])
      (by
        intro x hx
        simp only [List.mem_singleton] at hx
        subst hx
        simp only [addCall, freshStats]
        exact le_max_right _ _)
      (by
        refine ⟨q.2, by simp [addCall, freshStats], by simp, ?_⟩
        intro x hx
        simp only [List.mem_singleton] at hx
        subst hx
        exact le_refl _)
    have hdurs : groupDurs forest k = [q.2] ++ qs.map Prod.snd := by
      unfold groupDurs
      rw [hg]
      simp
    obtain ⟨h1, h2, h3, h4, m, hm, hmmem, hmle⟩ := main
    refine ⟨by rw [hdurs]; simp, ?_, ?_, ?_, ?_, ?_⟩
    · rw [hs, hdurs]
      exact h1
    · rw [hs, hdurs]
      exact h2
    · rw [hs, hdurs]
      show _ / _ = _
      rw [h1, h2]
    · rw [hs, hdurs]
      exact ⟨h3, h4⟩
    · refine ⟨m, ?_, ?_, ?_⟩
      · rw [hs]
        show some (Option.getD _ 0) = some m
        rw [hm]
        rfl
      · rw [hdurs]
        exact hmmem
      · rw [hdurs]
        exact hmle

/-- Witness for C5 at the claim's example scenario: three calls of `C#m`
with durations `[1, 2, 3]` aggregate to `total_time = 6`, `call_count = 3`,
`average_time = 2`, `max_time = 3`, `min_time = 1`. -/
theorem method_stats_per_group_witness :
    lookupK (methodStats demoForest) "C#m" = some demoStat ∧
    (groupDurs demoForest "C#m" ≠ [] ∧
     demoStat.total_time = (groupDurs demoForest "C#m").sum ∧
     demoStat.call_count = (groupDurs demoForest "C#m").length ∧
     demoStat.average_time =
       (groupDurs demoForest "C#m").sum /
         ((groupDurs demoForest "C#m").length : Rat) ∧
     (demoStat.max_time ∈ groupDurs demoForest "C#m" ∧
       ∀ x ∈ groupDurs demoForest "C#m", x ≤ demoStat.max_time) ∧
     ∃ m, demoStat.min_time = some m ∧ m ∈ groupDurs demoForest "C#m" ∧
       ∀ x ∈ groupDurs demoForest "C#m", m ≤ x) := by
  have hlook : lookupK (methodStats demoForest) "C#m" = some demoStat := by
    norm_num [demoForest, demoNode, demoStat, methodStats, finalizeStats,
      collectTs, collectT, statStep, qualDur, statKey, addCall, freshStats,
      insertK, lookupK, mkEv, max_def, min_def,
      show ("C" ++ "#" ++ "m" : String) = "C#m" from rfl,
      eq_false (by decide : ¬ (("C" : String) = ""))]
  exact ⟨hlook, method_stats_per_group demoForest "C#m" demoStat hlook⟩

-- ### Claim C6 ###

/-- C6: when every flattened node has a present positive duration, the sum of
`total_time` over all groups of the aggregator (the full descending-total
ranking, before truncation to the top 10) equals `totalTime`, the sum of
`duration` (absent treated as 0) over all pre-order-flattened nodes; and
`totalCalls` is the count of all flattened nodes. -/
theorem aggregator_total_round_trip (forest : List Tree)
    (h : ∀ n ∈ collectTs forest, ∃ d, n.ev.duration = some d ∧ 0 < d) :
    sumTotals (byTotalTimeFull forest) = totalTime forest ∧
    totalCalls forest = (collectTs forest).length := by
  refine ⟨?_, rfl⟩
  have hq : ∀ n ∈ collectTs forest,
      (qualDur n).getD 0 = n.ev.duration.getD 0 := by
    intro n hn
    obtain ⟨d, hd, hdpos⟩ := h n hn
    simp [qualDur, hd, hdpos]
  have hperm := List.mergeSort_perm ((methodStats forest).map Prod.snd)
    (fun a b => decide (b.total_time ≤ a.total_time))
  calc sumTotals (byTotalTimeFull forest)
      = sumTotals ((methodStats forest).map Prod.snd) := by
        unfold byTotalTimeFull sumTotals
        exact (hperm.map MethodStats.total_time).sum_eq
    _ = valueTotals (methodStats forest) := sumTotals_map_snd _
    _ = valueTotals ((collectTs forest).foldl statStep []) :=
        valueTotals_finalize _
    _ = ((collectTs forest).map fun n => (qualDur n).getD 0).sum := by
        rw [valueTotals_foldl]
        simp [valueTotals]
    _ = ((collectTs forest).map fun n => n.ev.duration.getD 0).sum := by
        exact congrArg List.sum (List.map_congr_left hq)
    _ = totalTime forest := by
        rw [totalTime, foldl_add_getD]
        simp

/-- Witness for C6 on the three-leaf demo forest with durations 1, 2, 3. -/
theorem aggregator_total_round_trip_witness :
    (∀ n ∈ collectTs demoForest, ∃ d, n.ev.duration = some d ∧ 0 < d) ∧
    (sumTotals (byTotalTimeFull demoForest) = totalTime demoForest ∧
     totalCalls demoForest = (collectTs demoForest).length) := by
  have hq : ∀ n ∈ collectTs demoForest, ∃ d, n.ev.duration = some d ∧ 0 < d := by
    intro n hn
    simp only [demoForest, demoNode, collectTs, collectT, mkEv, List.cons_append,
      List.nil_append, List.mem_cons, List.not_mem_nil, or_false] at hn
    rcases hn with h | h | h <;> subst h <;> exact ⟨_, rfl, by norm_num⟩
  exact ⟨hq, aggregator_total_round_trip demoForest hq⟩

-- ### Claim C10 ###

/-- C10: for an absent duration (`null` input), `formatDuration` returns the
empty string — not a `"nil"` sentinel, an error value, or a zero rendering —
so rows for calls that never returned show no duration badge at all. -/
theorem formatDuration_none_empty : formatDuration none = "" := rfl

-- ### Claim C4 ###

/-- C4: an event sequence ending in a `return` event whose call key has no
pending open call reconstructs to exactly the forest of the sequence without
that trailing return: the unmatched return produces no node and changes no
node (and the pass does not fail). -/
theorem unmatched_trailing_return_dropped (es : List Ev) (r : Ev)
    (hret : r.event = EvKind.ret)
    (hnone : lookupK (runFrom ⟨[], [], []⟩ 0 es).cs
      (callKeyOf r.depth r.method_name) = none) :
    transformTreeData (es ++ [r]) = transformTreeData es := by
  unfold transformTreeData
  rw [runFrom_append]
  simp only [runFrom]
  rw [procEv_ret_none _ _ _ hret hnone]

/-- Witness for C4: a lone `call a` followed by an unmatched `return b`. -/
theorem unmatched_trailing_return_dropped_witness :
    (mkEv EvKind.ret "b" 0).event = EvKind.ret ∧
    lookupK (runFrom ⟨[], [], []⟩ 0 [mkEv EvKind.call "a" 0]).cs
      (callKeyOf (mkEv EvKind.ret "b" 0).depth (mkEv EvKind.ret "b" 0).method_name)
      = none ∧
    transformTreeData ([mkEv EvKind.call "a" 0] ++ [mkEv EvKind.ret "b" 0]) =
      transformTreeData [mkEv EvKind.call "a" 0] :=
  ⟨rfl, by decide,
    unmatched_trailing_return_dropped [mkEv EvKind.call "a" 0]
      (mkEv EvKind.ret "b" 0) rfl (by decide)⟩

-- ### Claim C8 ###

/-- C8: after processing a `call` event, the pending-return index entry at
its call key names exactly the node created for that call (a later call at
the same key thus supersedes any earlier entry), and any following `return`
event that the index resolves merges its `return_value`, `end_time` and
`duration` into exactly the node the index names — every stack entry with a
different id is left unchanged, and the completed roots are untouched. -/
theorem pending_index_most_recent (s : TState) (i : Nat) (e : Ev)
    (hcall : e.event = EvKind.call) :
    lookupK (procEv s i e).cs (callKeyOf e.depth e.method_name) = some i ∧
    ∀ (r : Ev) (j tid : Nat), r.event = EvKind.ret →
      lookupK (procEv s i e).cs (callKeyOf r.depth r.method_name) = some tid →
      (procEv (procEv s i e) j r).stack =
        (procEv s i e).stack.map (fun o =>
          if o.data.id = tid then ⟨mergeRet o.data r, o.kids⟩ else o) ∧
      (procEv (procEv s i e) j r).roots = (procEv s i e).roots := by
  constructor
  · simp only [procEv, hcall]
    simp [mkNode, lookupK_insertK_self]
  · intro r j tid hret hfound
    rw [procEv_ret_found _ _ _ _ hret hfound]
    exact ⟨rfl, rfl⟩

/-- Witness for C8: two opens of `a` at depth 0; after the second call the
index entry for key `0-a` names node 1 (the most recent call), and a
following return at that key merges into node 1 only. -/
theorem pending_index_most_recent_witness :
    lookupK (procEv (runFrom ⟨[], [], []⟩ 0 [mkEv EvKind.call "a" 0]) 1
        (mkEv EvKind.call "a" 0)).cs
      (callKeyOf (mkEv EvKind.call "a" 0).depth (mkEv EvKind.call "a" 0).method_name)
      = some 1 ∧
    (procEv (procEv (runFrom ⟨[], [], []⟩ 0 [mkEv EvKind.call "a" 0]) 1
        (mkEv EvKind.call "a" 0)) 2 (mkEv EvKind.ret "a" 0)).stack =
      (procEv (runFrom ⟨[], [], []⟩ 0 [mkEv EvKind.call "a" 0]) 1
        (mkEv EvKind.call "a" 0)).stack.map (fun o =>
          if o.data.id = 1 then ⟨mergeRet o.data (mkEv EvKind.ret "a" 0), o.kids⟩
          else o) :=
  ⟨(pending_index_most_recent _ 1 _ rfl).1,
    ((pending_index_most_recent _ 1 _ rfl).2 (mkEv EvKind.ret "a" 0) 2 1 rfl
      (by decide)).1⟩

-- ### Claim C7 ###

/-- C7 counterexample: `formatValue` does not bound its output by the
caller-supplied maximum length.  `formatValue(null, 2)` is `"nil"` (length 3),
and even in the truncating string branch the result of
`formatValue("a"*60, 50)` has length 51: `slice(0, maxLength-3)` plus the
4-character marker `..."` exceeds the maximum by one. -/
theorem formatValue_not_bounded :
    ¬ ((formatValue Val.vnull 2).length ≤ 2) ∧
    ¬ ((formatValue (Val.vstr (List.replicate 60 'a')) 50).length ≤ 50) := by
  decide

/-- C7 amended: for string values and a maximum length of at least 3, the
compact formatter's output length is at most the maximum plus one: an
untruncated quoted string is returned whole when it fits, and otherwise the
truncated rendering (slice of length `maxLength - 3` plus the 4-character
ellipsis marker `..."`) has length exactly `maxLength + 1`.  For other value
kinds no such bound holds: the counterexample shows `null` rendering as
`"nil"` regardless of the maximum. -/
theorem formatValue_string_bound (s : List Char) (m : Nat) (h3 : 3 ≤ m) :
    (formatValue (Val.vstr s) m).length ≤ m + 1 ∧
    ((jsonQuote s).length ≤ m → formatValue (Val.vstr s) m = jsonQuote s) ∧
    (m < (jsonQuote s).length →
      (formatValue (Val.vstr s) m).length = m + 1 ∧
      "...\"".data <:+ formatValue (Val.vstr s) m) := by
  have hcast : ((m : Int) - 3) = ((m - 3 : Nat) : Int) := by omega
  by_cases h : m < (jsonQuote s).length
  · have hslice : jsSliceTo (jsonQuote s) ((m : Int) - 3)
        = (jsonQuote s).take (m - 3) := by
      rw [jsSliceTo, if_pos (by omega), hcast, Int.toNat_natCast]
    have hlen : ((jsonQuote s).take (m - 3)).length = m - 3 := by
      rw [List.length_take]
      omega
    refine ⟨?_, ?_, ?_⟩
    · simp only [formatValue, if_pos h, hslice]
      simp [hlen]
      omega
    · intro hle; omega
    · intro _
      constructor
      · simp only [formatValue, if_pos h, hslice]
        simp [hlen]
        omega
      · simp only [formatValue, if_pos h, hslice]
        exact List.suffix_append _ _
  · have hle : (jsonQuote s).length ≤ m := by omega
    refine ⟨?_, fun _ => ?_, fun hgt => absurd hgt h⟩
    · simp only [formatValue, if_neg h]
      omega
    · simp only [formatValue, if_neg h]

/-- Witness for C7's amended bound at a concrete truncating input. -/
theorem formatValue_string_bound_witness :
    (3 : Nat) ≤ 5 ∧
    ((formatValue (Val.vstr (List.replicate 9 'a')) 5).length ≤ 5 + 1 ∧
    ((jsonQuote (List.replicate 9 'a')).length ≤ 5 →
      formatValue (Val.vstr (List.replicate 9 'a')) 5
        = jsonQuote (List.replicate 9 'a')) ∧
    (5 < (jsonQuote (List.replicate 9 'a')).length →
      (formatValue (Val.vstr (List.replicate 9 'a')) 5).length = 5 + 1 ∧
      "...\"".data <:+ formatValue (Val.vstr (List.replicate 9 'a')) 5)) :=
  ⟨by decide, formatValue_string_bound (List.replicate 9 'a') 5 (by decide)⟩

-- ### Reconstruction pre-order bookkeeping ###

theorem collectTs_append (a b : List Tree) :
    collectTs (a ++ b) = collectTs a ++ collectTs b := by
  induction a with
  | nil => simp [collectTs]
  | cons t ts ih =>
    rw [List.cons_append, collectTs, collectTs, ih, List.append_assoc]

theorem popGoing_flat (lvl : Nat) :
    ∀ (st : List OpenNode) (p : Option Tree) (roots : List Tree)
      (cs : List (String × Nat)),
      collectTs (popGoing lvl st p roots cs).roots
          ++ stackFlat (popGoing lvl st p roots cs).stack
        = collectTs roots ++ stackFlat st ++ collectTs (pendList p) := by
  intro st
  induction st with
  | nil =>
    intro p roots cs
    rw [popGoing]
    simp [stackFlat, collectTs_append]
  | cons top rest ih =>
    intro p roots cs
    rw [popGoing]
    by_cases h : lvl ≤ top.data.level
    · rw [if_pos h, ih]
      simp only [pendList, collectTs, collectT, stackFlat, collectTs_append]
      simp [List.append_assoc]
    · rw [if_neg h]
      simp only [stackFlat, collectTs_append]
      simp [List.append_assoc]

theorem popGoing_zero_stack :
    ∀ (st : List OpenNode) (p : Option Tree) (roots : List Tree)
      (cs : List (String × Nat)),
      (popGoing 0 st p roots cs).stack = [] := by
  intro st
  induction st with
  | nil => intro p roots cs; rw [popGoing]
  | cons top rest ih =>
    intro p roots cs
    rw [popGoing, if_pos (Nat.zero_le _)]
    exact ih _ _ _

theorem stableView_mergeRet (d : NodeData) (e : Ev) :
    stableView (mergeRet d e) = stableView d := rfl

theorem stackFlat_merge_map (tid : Nat) (e : Ev) :
    ∀ (st : List OpenNode),
      (stackFlat (st.map fun o =>
        if o.data.id = tid then ⟨mergeRet o.data e, o.kids⟩ else o)).map stableView
        = (stackFlat st).map stableView := by
  intro st
  induction st with
  | nil => rfl
  | cons o rest ih =>
    rw [List.map_cons, stackFlat, stackFlat]
    by_cases h : o.data.id = tid
    · simp only [if_pos h]
      simp [ih, stableView_mergeRet]
    · simp only [if_neg h]
      simp [ih]

theorem stateFlat_procEv (s : TState) (i : Nat) (e : Ev) :
    (stateFlat (procEv s i e)).map stableView
      = (stateFlat s).map stableView
        ++ (if e.event = EvKind.ret then [] else [stableView (mkNode i e)]) := by
  cases he : e.event with
  | ret =>
    rw [if_pos rfl]
    cases hl : lookupK s.cs (callKeyOf e.depth e.method_name) with
    | none =>
      rw [procEv_ret_none s i e he hl]
      simp
    | some tid =>
      rw [procEv_ret_found s i e tid he hl]
      simp only [stateFlat, List.map_append, List.append_nil]
      rw [stackFlat_merge_map]
  | call =>
    rw [if_neg (by simp [he])]
    simp only [procEv, he]
    simp only [stateFlat, stackFlat, collectTs, List.map_append]
    have hp := popGoing_flat e.depth s.stack none s.roots s.cs
    simp only [pendList, collectTs, List.append_nil] at hp
    have hp2 := congrArg (List.map stableView) hp
    simp only [List.map_append] at hp2
    rw [← List.append_assoc, hp2]
    simp
  | callReturn =>
    rw [if_neg (by simp [he])]
    simp only [procEv, he]
    simp only [stateFlat, stackFlat, collectTs, List.map_append]
    have hp := popGoing_flat e.depth s.stack none s.roots s.cs
    simp only [pendList, collectTs, List.append_nil] at hp
    have hp2 := congrArg (List.map stableView) hp
    simp only [List.map_append] at hp2
    rw [← List.append_assoc, hp2]
    simp

theorem stateFlat_runFrom :
    ∀ (es : List Ev) (s : TState) (i : Nat),
      (stateFlat (runFrom s i es)).map stableView
        = (stateFlat s).map stableView ++ (createdFrom i es).map stableView := by
  intro es
  induction es with
  | nil => intro s i; simp [runFrom, createdFrom]
  | cons e t ih =>
    intro s i
    rw [runFrom, ih, stateFlat_procEv, createdFrom]
    by_cases he : e.event = EvKind.ret
    · rw [if_pos he, if_pos he]
      simp
    · rw [if_neg he, if_neg he]
      simp

/-- Master correspondence: up to the fields a return merge may change, the
pre-order flattening of the reconstructed forest is exactly the list of nodes
created for the non-return events, in event order. -/
theorem transform_master (es : List Ev) :
    (collectTs (transformTreeData es)).map stableView
      = (createdFrom 0 es).map stableView := by
  unfold transformTreeData flushState
  have hflat := popGoing_flat 0 (runFrom ⟨[], [], []⟩ 0 es).stack none
    (runFrom ⟨[], [], []⟩ 0 es).roots (runFrom ⟨[], [], []⟩ 0 es).cs
  rw [popGoing_zero_stack] at hflat
  simp only [stackFlat, pendList, collectTs, List.append_nil] at hflat
  have hrun := stateFlat_runFrom es ⟨[], [], []⟩ 0
  simp only [stateFlat, stackFlat, collectTs, List.append_nil, List.map_nil,
    List.nil_append] at hrun
  rw [hflat]
  exact hrun

theorem collect_map_proj {α : Type} (f : Ev × Nat × Bool × Nat → α)
    (g : NodeData → α) (hf : ∀ d, f (stableView d) = g d) (es : List Ev) :
    (collectTs (transformTreeData es)).map g = (createdFrom 0 es).map g := by
  have h := congrArg (List.map f) (transform_master es)
  have hc : f ∘ stableView = g := funext hf
  rw [List.map_map, List.map_map, hc] at h
  exact h

theorem createdFrom_mem :
    ∀ (es : List Ev) (k : Nat) (d : NodeData), d ∈ createdFrom k es →
      ∃ j e', es.get? j = some e' ∧ e'.event ≠ EvKind.ret
        ∧ d = mkNode (k + j) e' := by
  intro es
  induction es with
  | nil => intro k d hd; simp [createdFrom] at hd
  | cons e t ih =>
    intro k d hd
    by_cases he : e.event = EvKind.ret
    · rw [createdFrom, if_pos he] at hd
      obtain ⟨j, e', hget, hne, hdef⟩ := ih (k + 1) d hd
      exact ⟨j + 1, e', hget, hne, by rw [hdef]; congr 1; omega⟩
    · rw [createdFrom, if_neg he] at hd
      rcases List.mem_cons.1 hd with hd | hd
      · exact ⟨0, e, rfl, he, by rw [hd, Nat.add_zero]⟩
      · obtain ⟨j, e', hget, hne, hdef⟩ := ih (k + 1) d hd
        exact ⟨j + 1, e', hget, hne, by rw [hdef]; congr 1; omega⟩

theorem collect_mem_facts (es : List Ev) (d : NodeData)
    (hd : d ∈ collectTs (transformTreeData es)) :
    ∃ j e', es.get? j = some e' ∧ e'.event ≠ EvKind.ret ∧
      d.id = j ∧ d.level = e'.depth ∧ d.isExpanded = true := by
  have hmem : stableView d ∈ (createdFrom 0 es).map stableView := by
    rw [← transform_master]
    exact List.mem_map_of_mem _ hd
  obtain ⟨d', hd', hsv⟩ := List.mem_map.1 hmem
  obtain ⟨j, e', hget, hne, hdef⟩ := createdFrom_mem es 0 d' hd'
  subst hdef
  refine ⟨j, e', hget, hne, ?_, ?_, ?_⟩
  · have := congrArg (fun t : Ev × Nat × Bool × Nat => t.2.1) hsv
    simpa [stableView, mkNode] using this.symm
  · have := congrArg (fun t : Ev × Nat × Bool × Nat => t.2.2.2) hsv
    simpa [stableView, mkNode] using this.symm
  · have := congrArg (fun t : Ev × Nat × Bool × Nat => t.2.2.1) hsv
    simpa [stableView, mkNode] using this.symm

mutual

theorem flattenT_eq_collectT :
    ∀ t, (∀ d ∈ collectT t, d.isExpanded = true) → flattenT t = collectT t
  | Tree.node d cs, h => by
    rw [flattenT, collectT]
    have hd : d.isExpanded = true :=
      h d (by rw [collectT]; exact List.mem_cons_self _ _)
    cases cs with
    | nil =>
      rw [if_neg (by simp)]
      rfl
    | cons c cs' =>
      rw [if_pos ⟨hd, Nat.succ_pos _⟩]
      congr 1
      exact flattenTs_eq_collectTs (c :: cs')
        (fun d' hd' => h d' (by rw [collectT]; exact List.mem_cons_of_mem _ hd'))

theorem flattenTs_eq_collectTs :
    ∀ ts, (∀ d ∈ collectTs ts, d.isExpanded = true) → flattenTs ts = collectTs ts
  | [], _ => rfl
  | t :: ts, h => by
    rw [flattenTs, collectTs,
      flattenT_eq_collectT t
        (fun d hd => h d (by rw [collectTs]; exact List.mem_append_left _ hd)),
      flattenTs_eq_collectTs ts
        (fun d hd => h d (by rw [collectTs]; exact List.mem_append_right _ hd))]

end

theorem createdFrom_append :
    ∀ (a b : List Ev) (k : Nat),
      createdFrom k (a ++ b) = createdFrom k a ++ createdFrom (k + a.length) b := by
  intro a
  induction a with
  | nil => intro b k; simp [createdFrom]
  | cons e t ih =>
    intro b k
    by_cases he : e.event = EvKind.ret
    · rw [List.cons_append, createdFrom, if_pos he, createdFrom, if_pos he, ih]
      congr 2
      simp
      omega
    · rw [List.cons_append, createdFrom, if_neg he, createdFrom, if_neg he, ih]
      simp only [List.cons_append, List.length_cons]
      congr 3
      omega

theorem createdFrom_pairs_nested (d : Nat) (es : List Ev)
    (h : WellNested d es) :
    ∀ k, (createdFrom k es).map pairOfD
      = (es.filter fun e => e.event == EvKind.call).map
          fun e => (e.method_name, e.depth) := by
  induction h with
  | nil d => intro k; simp [createdFrom]
  | block d c r body rest hc hr hcd hrd hrm hbody hrest ihbody ihrest =>
    intro k
    have hcne : c.event ≠ EvKind.ret := by rw [hc]; exact fun hx => by cases hx
    simp only [createdFrom, List.append_eq]
    rw [if_neg hcne, createdFrom_append]
    have hmid : createdFrom (k + 1 + body.length) (r :: rest)
        = createdFrom (k + 1 + body.length + 1) rest := by
      simp only [createdFrom]
      rw [if_pos hr]
    rw [hmid]
    have h1 : (c.event == EvKind.call) = true := by rw [hc]; rfl
    have h2 : (r.event == EvKind.call) = false := by rw [hr]; rfl
    rw [List.filter_append, List.filter_cons, List.filter_cons, h1, h2]
    simp only [if_true, if_false, List.map_cons, List.map_append]
    rw [ihbody, ihrest]
    rfl

-- ### Claim C1 ###

/-- C1: for every event sequence of perfectly nested, matched call/return
pairs, the reconstructed forest, flattened in pre-order by `flattenTree`,
yields exactly the `(method_name, depth)` pairs of the input's `call` events,
in order. -/
theorem nested_flatten_preorder (es : List Ev) (h : WellNested 0 es) :
    (flattenTs (transformTreeData es)).map pairOfD
      = (es.filter fun e => e.event == EvKind.call).map
          fun e => (e.method_name, e.depth) := by
  have hexp : ∀ d ∈ collectTs (transformTreeData es), d.isExpanded = true := by
    intro d hd
    obtain ⟨j, e', _, _, _, _, hx⟩ := collect_mem_facts es d hd
    exact hx
  rw [flattenTs_eq_collectTs _ hexp,
    collect_map_proj (fun t => (t.1.method_name, t.1.depth)) pairOfD
      (fun d => rfl) es]
  exact createdFrom_pairs_nested 0 es h 0

/-- Witness for C1: the nested trace `call a/0, call b/1, return b/1,
return a/0`. -/
theorem nested_flatten_preorder_witness :
    WellNested 0 [mkEv EvKind.call "a" 0, mkEv EvKind.call "b" 1,
      mkEv EvKind.ret "b" 1, mkEv EvKind.ret "a" 0] ∧
    (flattenTs (transformTreeData [mkEv EvKind.call "a" 0,
        mkEv EvKind.call "b" 1, mkEv EvKind.ret "b" 1,
        mkEv EvKind.ret "a" 0])).map pairOfD
      = ([mkEv EvKind.call "a" 0, mkEv EvKind.call "b" 1,
          mkEv EvKind.ret "b" 1, mkEv EvKind.ret "a" 0].filter
            fun e => e.event == EvKind.call).map
          fun e => (e.method_name, e.depth) := by
  have hinner : WellNested 1 [mkEv EvKind.call "b" 1, mkEv EvKind.ret "b" 1] :=
    WellNested.block 1 (mkEv EvKind.call "b" 1) (mkEv EvKind.ret "b" 1) [] []
      rfl rfl rfl rfl rfl (WellNested.nil 2) (WellNested.nil 1)
  have hw : WellNested 0 [mkEv EvKind.call "a" 0, mkEv EvKind.call "b" 1,
      mkEv EvKind.ret "b" 1, mkEv EvKind.ret "a" 0] :=
    WellNested.block 0 (mkEv EvKind.call "a" 0) (mkEv EvKind.ret "a" 0)
      [mkEv EvKind.call "b" 1, mkEv EvKind.ret "b" 1] []
      rfl rfl rfl rfl rfl hinner (WellNested.nil 0)
  exact ⟨hw, nested_flatten_preorder _ hw⟩

-- ### Structural invariants of the reconstruction stack ###

theorem heredTs_append (R : NodeData → NodeData → Bool) (a b : List Tree) :
    heredTs R (a ++ b) = (heredTs R a && heredTs R b) := by
  induction a with
  | nil => simp [heredTs]
  | cons t ts ih => rw [List.cons_append, heredTs, heredTs, ih, Bool.and_assoc]

theorem rootD_mem_collectT (t : Tree) : rootD t ∈ collectT t := by
  cases t with
  | node d cs => rw [rootD, collectT]; exact List.mem_cons_self _ _

theorem popGoing_inv (lvl n : Nat) :
    ∀ (st : List OpenNode) (p : Option Tree) (roots : List Tree)
      (cs : List (String × Nat)),
      heredTs bothLt roots = true →
      (∀ o ∈ st, heredTs bothLt o.kids = true ∧
        ∀ c ∈ o.kids, bothLt o.data (rootD c) = true) →
      List.Chain' (fun a b => bothLt b.data a.data = true) st →
      (∀ o ∈ st, o.data.id < n) →
      (∀ t0, p = some t0 → heredT bothLt t0 = true ∧
        ∀ top rest, st = top :: rest → bothLt top.data (rootD t0) = true) →
      heredTs bothLt (popGoing lvl st p roots cs).roots = true ∧
      (∀ o ∈ (popGoing lvl st p roots cs).stack, heredTs bothLt o.kids = true ∧
        ∀ c ∈ o.kids, bothLt o.data (rootD c) = true) ∧
      List.Chain' (fun a b => bothLt b.data a.data = true)
        (popGoing lvl st p roots cs).stack ∧
      (∀ o ∈ (popGoing lvl st p roots cs).stack, o.data.id < n) ∧
      (∀ top rest, (popGoing lvl st p roots cs).stack = top :: rest →
        top.data.level < lvl) := by
  intro st
  induction st with
  | nil =>
    intro p roots cs hroots hst hchain hid hpend
    rw [popGoing]
    refine ⟨?_, by simp, List.chain'_nil, by simp, by simp⟩
    cases p with
    | none => simpa [pendList, heredTs_append, heredTs] using hroots
    | some t0 =>
      rw [pendList, heredTs_append]
      have h0 := (hpend t0 rfl).1
      simp [heredTs, hroots, h0]
  | cons top rest ih =>
    intro p roots cs hroots hst hchain hid hpend
    have htop := hst top (List.mem_cons_self _ _)
    have hk1 : heredTs bothLt (top.kids ++ pendList p) = true := by
      rw [heredTs_append, Bool.and_eq_true]
      refine ⟨htop.1, ?_⟩
      cases p with
      | none => rfl
      | some t0 =>
        have h0 := (hpend t0 rfl).1
        simp [pendList, heredTs, h0]
    have hk2 : ∀ c ∈ top.kids ++ pendList p,
        bothLt top.data (rootD c) = true := by
      intro c hc
      rcases List.mem_append.1 hc with hc | hc
      · exact htop.2 c hc
      · cases p with
        | none => simp [pendList] at hc
        | some t0 =>
          simp only [pendList, List.mem_singleton] at hc
          subst hc
          exact (hpend c rfl).2 top rest rfl
    rw [popGoing]
    by_cases h : lvl ≤ top.data.level
    · rw [if_pos h]
      refine ih (some (Tree.node top.data (top.kids ++ pendList p))) roots _
        hroots
        (fun o ho => hst o (List.mem_cons_of_mem _ ho))
        ((List.chain'_cons'.1 hchain).2)
        (fun o ho => hid o (List.mem_cons_of_mem _ ho))
        ?_
      intro t0 ht0
      cases ht0
      constructor
      · rw [heredT, Bool.and_eq_true]
        exact ⟨List.all_eq_true.2 hk2, hk1⟩
      · intro top2 rest2 hrest
        subst hrest
        have := (List.chain'_cons'.1 hchain).1
        exact this top2 rfl
    · rw [if_neg h]
      refine ⟨hroots, ?_, ?_, ?_, ?_⟩
      · intro o ho
        rcases List.mem_cons.1 ho with ho | ho
        · subst ho
          exact ⟨hk1, hk2⟩
        · exact hst o (List.mem_cons_of_mem _ ho)
      · rw [List.chain'_cons']
        refine ⟨?_, (List.chain'_cons'.1 hchain).2⟩
        intro b hb
        exact (List.chain'_cons'.1 hchain).1 b hb
      · intro o ho
        rcases List.mem_cons.1 ho with ho | ho
        · subst ho
          exact hid top (List.mem_cons_self _ _)
        · exact hid o (List.mem_cons_of_mem _ ho)
      · intro top' rest' heq
        cases heq
        exact Nat.lt_of_not_le h

theorem bothLt_congr (d d' c c' : NodeData)
    (h1 : d.level = d'.level) (h2 : d.id = d'.id)
    (h3 : c.level = c'.level) (h4 : c.id = c'.id) :
    bothLt d c = bothLt d' c' := by
  simp [bothLt, h1, h2, h3, h4]

theorem procEv_nonret (s : TState) (i : Nat) (e : Ev)
    (he : e.event ≠ EvKind.ret) :
    (procEv s i e).roots = (popGoing e.depth s.stack none s.roots s.cs).roots ∧
    (procEv s i e).stack =
      ⟨mkNode i e, []⟩ :: (popGoing e.depth s.stack none s.roots s.cs).stack := by
  cases hev : e.event with
  | ret => exact absurd hev he
  | call => simp [procEv, hev]
  | callReturn => simp [procEv, hev]

theorem procEv_inv (s : TState) (i : Nat) (e : Ev)
    (h1 : heredTs bothLt s.roots = true)
    (h2 : ∀ o ∈ s.stack, heredTs bothLt o.kids = true ∧
      ∀ c ∈ o.kids, bothLt o.data (rootD c) = true)
    (h3 : List.Chain' (fun a b => bothLt b.data a.data = true) s.stack)
    (h4 : ∀ o ∈ s.stack, o.data.id < i) :
    heredTs bothLt (procEv s i e).roots = true ∧
    (∀ o ∈ (procEv s i e).stack, heredTs bothLt o.kids = true ∧
      ∀ c ∈ o.kids, bothLt o.data (rootD c) = true) ∧
    List.Chain' (fun a b => bothLt b.data a.data = true) (procEv s i e).stack ∧
    (∀ o ∈ (procEv s i e).stack, o.data.id < i + 1) := by
  by_cases he : e.event = EvKind.ret
  · cases hl : lookupK s.cs (callKeyOf e.depth e.method_name) with
    | none =>
      rw [procEv_ret_none s i e he hl]
      exact ⟨h1, h2, h3, fun o ho => Nat.lt_succ_of_lt (h4 o ho)⟩
    | some tid =>
      rw [procEv_ret_found s i e tid he hl]
      refine ⟨h1, ?_, ?_, ?_⟩
      · intro o ho
        obtain ⟨o0, ho0, rfl⟩ := List.mem_map.1 ho
        by_cases hid : o0.data.id = tid
        · simp only [if_pos hid]
          refine ⟨(h2 o0 ho0).1, ?_⟩
          intro c hc
          rw [bothLt_congr (mergeRet o0.data e) o0.data (rootD c) (rootD c)
            (by simp [mergeRet]) (by simp [mergeRet]) rfl rfl]
          exact (h2 o0 ho0).2 c hc
        · simp only [if_neg hid]
          exact h2 o0 ho0
      · rw [List.chain'_map]
        refine List.Chain'.imp ?_ h3
        intro a b hab
        have hbl : (if b.data.id = tid
            then (⟨mergeRet b.data e, b.kids⟩ : OpenNode) else b).data.level
            = b.data.level := by
          by_cases hb : b.data.id = tid <;> simp [hb, mergeRet]
        have hbi : (if b.data.id = tid
            then (⟨mergeRet b.data e, b.kids⟩ : OpenNode) else b).data.id
            = b.data.id := by
          by_cases hb : b.data.id = tid <;> simp [hb, mergeRet]
        have hal : (if a.data.id = tid
            then (⟨mergeRet a.data e, a.kids⟩ : OpenNode) else a).data.level
            = a.data.level := by
          by_cases ha : a.data.id = tid <;> simp [ha, mergeRet]
        have hai : (if a.data.id = tid
            then (⟨mergeRet a.data e, a.kids⟩ : OpenNode) else a).data.id
            = a.data.id := by
          by_cases ha : a.data.id = tid <;> simp [ha, mergeRet]
        rw [bothLt_congr _ b.data _ a.data hbl hbi hal hai]
        exact hab
      · intro o ho
        obtain ⟨o0, ho0, rfl⟩ := List.mem_map.1 ho
        have hlt := h4 o0 ho0
        by_cases hid : o0.data.id = tid <;> simp [hid, mergeRet] <;> omega
  · obtain ⟨hr, hs⟩ := procEv_nonret s i e he
    have pop := popGoing_inv e.depth i s.stack none s.roots s.cs h1 h2 h3 h4
      (by intro t0 ht0; cases ht0)
    rw [hr, hs]
    refine ⟨pop.1, ?_, ?_, ?_⟩
    · intro o ho
      rcases List.mem_cons.1 ho with ho | ho
      · subst ho
        exact ⟨rfl, by intro c hc; simp at hc⟩
      · exact pop.2.1 o ho
    · rw [List.chain'_cons']
      refine ⟨?_, pop.2.2.1⟩
      intro b hb
      cases hps : (popGoing e.depth s.stack none s.roots s.cs).stack with
      | nil => rw [hps] at hb; simp at hb
      | cons top' rest' =>
        rw [hps] at hb
        simp only [List.head?_cons, Option.mem_def, Option.some.injEq] at hb
        have hlev : top'.data.level < e.depth := pop.2.2.2.2 top' rest' hps
        have hid' : top'.data.id < i :=
          pop.2.2.2.1 top' (hps ▸ List.mem_cons_self _ _)
        subst hb
        simp [bothLt, mkNode, hlev, hid']
    · intro o ho
      rcases List.mem_cons.1 ho with ho | ho
      · subst ho
        simp [mkNode]
      · exact Nat.lt_succ_of_lt (pop.2.2.2.1 o ho)

theorem runFrom_inv :
    ∀ (es : List Ev) (s : TState) (i : Nat),
      heredTs bothLt s.roots = true →
      (∀ o ∈ s.stack, heredTs bothLt o.kids = true ∧
        ∀ c ∈ o.kids, bothLt o.data (rootD c) = true) →
      List.Chain' (fun a b => bothLt b.data a.data = true) s.stack →
      (∀ o ∈ s.stack, o.data.id < i) →
      heredTs bothLt (runFrom s i es).roots = true ∧
      (∀ o ∈ (runFrom s i es).stack, heredTs bothLt o.kids = true ∧
        ∀ c ∈ o.kids, bothLt o.data (rootD c) = true) ∧
      List.Chain' (fun a b => bothLt b.data a.data = true) (runFrom s i es).stack ∧
      (∀ o ∈ (runFrom s i es).stack, o.data.id < i + es.length) := by
  intro es
  induction es with
  | nil =>
    intro s i a b c d
    rw [runFrom]
    exact ⟨a, b, c, by simpa using d⟩
  | cons e t ih =>
    intro s i a b c d
    rw [runFrom]
    have step := procEv_inv s i e a b c d
    have hrec := ih (procEv s i e) (i + 1) step.1 step.2.1 step.2.2.1 step.2.2.2
    refine ⟨hrec.1, hrec.2.1, hrec.2.2.1, ?_⟩
    intro o ho
    have := hrec.2.2.2 o ho
    simp only [List.length_cons]
    omega

/-- Every forest produced by reconstruction satisfies the hereditary
parent/child relation: each child's level and id strictly exceed its
parent's. -/
theorem transform_hered_bothLt (es : List Ev) :
    heredTs bothLt (transformTreeData es) = true := by
  unfold transformTreeData flushState
  have run := runFrom_inv es ⟨[], [], []⟩ 0 rfl (by simp) List.chain'_nil (by simp)
  have pop := popGoing_inv 0 (0 + es.length) (runFrom ⟨[], [], []⟩ 0 es).stack
    none (runFrom ⟨[], [], []⟩ 0 es).roots (runFrom ⟨[], [], []⟩ 0 es).cs
    run.1 run.2.1 run.2.2.1 run.2.2.2 (by intro t0 ht0; cases ht0)
  exact pop.1

mutual

theorem heredT_mono (R S : NodeData → NodeData → Bool)
    (hRS : ∀ p c, R p c = true → S p c = true) :
    ∀ t, heredT R t = true → heredT S t = true
  | Tree.node d cs, h => by
    rw [heredT, Bool.and_eq_true] at h ⊢
    refine ⟨?_, heredTs_mono R S hRS cs h.2⟩
    have h1 := List.all_eq_true.1 h.1
    exact List.all_eq_true.2 fun c hc => hRS _ _ (h1 c hc)

theorem heredTs_mono (R S : NodeData → NodeData → Bool)
    (hRS : ∀ p c, R p c = true → S p c = true) :
    ∀ ts, heredTs R ts = true → heredTs S ts = true
  | [], _ => rfl
  | t :: ts, h => by
    rw [heredTs, Bool.and_eq_true] at h ⊢
    exact ⟨heredT_mono R S hRS t h.1, heredTs_mono R S hRS ts h.2⟩

end

-- ### Claim C9 ###

/-- C9: in every forest produced by reconstruction, every node that has a
parent has level strictly greater than its parent's level (equivalently, for
any attached node of depth `d > 0` the parent's depth is `< d`): the pop loop
removes every stack entry of level `>= d` before a node of depth `d` is
attached. -/
theorem reconstruction_parent_levels (es : List Ev) :
    heredTs levelLt (transformTreeData es) = true :=
  heredTs_mono bothLt levelLt
    (fun p c h => by
      simp only [bothLt, Bool.and_eq_true, decide_eq_true_eq] at h
      simp only [levelLt, decide_eq_true_eq]
      exact h.1)
    (transformTreeData es) (transform_hered_bothLt es)

-- ### Kid-count extraction for claim C2 ###

mutual

theorem heredT_kid_facts :
    ∀ t, heredT bothLt t = true →
      ∀ p ∈ kidCountT t, p.2 ≠ 0 →
        ∃ dp dc, dp ∈ collectT t ∧ dc ∈ collectT t ∧ dp.id = p.1 ∧
          bothLt dp dc = true
  | Tree.node d cs, h, p, hp, hne => by
    rw [heredT, Bool.and_eq_true] at h
    rw [kidCountT] at hp
    rcases List.mem_cons.1 hp with hp | hp
    · subst hp
      cases cs with
      | nil => simp at hne
      | cons c cs' =>
        refine ⟨d, rootD c, ?_, ?_, rfl, ?_⟩
        · rw [collectT]
          exact List.mem_cons_self _ _
        · rw [collectT]
          refine List.mem_cons_of_mem _ ?_
          rw [collectTs]
          exact List.mem_append_left _ (rootD_mem_collectT c)
        · exact List.all_eq_true.1 h.1 c (List.mem_cons_self _ _)
    · obtain ⟨dp, dc, hdp, hdc, hid, hlt⟩ := heredTs_kid_facts cs h.2 p hp hne
      exact ⟨dp, dc, by rw [collectT]; exact List.mem_cons_of_mem _ hdp,
        by rw [collectT]; exact List.mem_cons_of_mem _ hdc, hid, hlt⟩

theorem heredTs_kid_facts :
    ∀ ts, heredTs bothLt ts = true →
      ∀ p ∈ kidCountTs ts, p.2 ≠ 0 →
        ∃ dp dc, dp ∈ collectTs ts ∧ dc ∈ collectTs ts ∧ dp.id = p.1 ∧
          bothLt dp dc = true
  | [], _, p, hp, _ => by simp [kidCountTs] at hp
  | t :: ts, h, p, hp, hne => by
    rw [heredTs, Bool.and_eq_true] at h
    rw [kidCountTs] at hp
    rcases List.mem_append.1 hp with hp | hp
    · obtain ⟨dp, dc, hdp, hdc, hid, hlt⟩ := heredT_kid_facts t h.1 p hp hne
      exact ⟨dp, dc, by rw [collectTs]; exact List.mem_append_left _ hdp,
        by rw [collectTs]; exact List.mem_append_left _ hdc, hid, hlt⟩
    · obtain ⟨dp, dc, hdp, hdc, hid, hlt⟩ := heredTs_kid_facts ts h.2 p hp hne
      exact ⟨dp, dc, by rw [collectTs]; exact List.mem_append_right _ hdp,
        by rw [collectTs]; exact List.mem_append_right _ hdc, hid, hlt⟩

end

theorem createdFrom_ids_ge (es : List Ev) (k : Nat) (d : NodeData)
    (hd : d ∈ createdFrom k es) : k ≤ d.id := by
  obtain ⟨j, e', _, _, rfl⟩ := createdFrom_mem es k d hd
  simp [mkNode]

theorem createdFrom_count :
    ∀ (es : List Ev) (k j : Nat) (e' : Ev), es.get? j = some e' →
      e'.event ≠ EvKind.ret →
      ((createdFrom k es).map NodeData.id).count (k + j) = 1 := by
  intro es
  induction es with
  | nil => intro k j e' hget; simp at hget
  | cons e t ih =>
    intro k j e' hget hne
    cases j with
    | zero =>
      simp only [List.get?] at hget
      cases hget
      simp only [createdFrom]
      rw [if_neg hne, List.map_cons, Nat.add_zero]
      have h0 : ((createdFrom (k + 1) t).map NodeData.id).count k = 0 := by
        rw [List.count_eq_zero]
        intro hmem
        obtain ⟨d, hd, hid⟩ := List.mem_map.1 hmem
        have := createdFrom_ids_ge t (k + 1) d hd
        omega
      simp [List.count_cons, mkNode, h0]
    | succ j' =>
      simp only [List.get?] at hget
      by_cases he : e.event = EvKind.ret
      · simp only [createdFrom]
        rw [if_pos he, show k + (j' + 1) = (k + 1) + j' from by omega]
        exact ih (k + 1) j' e' hget hne
      · simp only [createdFrom]
        rw [if_neg he, List.map_cons, List.count_cons,
          show k + (j' + 1) = (k + 1) + j' from by omega]
        have hcnt := ih (k + 1) j' e' hget hne
        have hne2 : ¬ ((mkNode k e).id = (k + 1) + j') := by
          simp [mkNode]
          omega
        simp [hcnt, hne2]

-- ### Claim C2 ###

/-- C2 counterexample: on the input `call_return x at depth 0, call y at
depth 1`, the node produced for the `call_return` event (id 0) does not have
an empty children sequence: `call_return` nodes are pushed onto the open-node
stack and become parents of later strictly deeper events. -/
theorem call_return_gets_child :
    ¬ (∀ p ∈ kidCountTs (transformTreeData
        [mkEv EvKind.callReturn "x" 0, mkEv EvKind.call "y" 1]),
        p.1 = 0 → p.2 = 0) := by
  decide

/-- C2 amended: every `call_return` event produces exactly one Call Node
(counted by id in the pre-order flattening), and that node's children are
empty provided no later event of the sequence has depth strictly greater
than the `call_return`'s depth (a later strictly deeper event would be
attached as its child, see the counterexample). -/
theorem call_return_single_childless (es : List Ev) (i : Nat) (e : Ev)
    (hget : es.get? i = some e) (hkind : e.event = EvKind.callReturn)
    (hafter : ∀ j e', es.get? j = some e' → i < j → e'.depth ≤ e.depth) :
    ((collectTs (transformTreeData es)).map NodeData.id).count i = 1 ∧
    ∀ p ∈ kidCountTs (transformTreeData es), p.1 = i → p.2 = 0 := by
  constructor
  · rw [collect_map_proj (fun t => t.2.1) NodeData.id (fun d => rfl) es]
    have := createdFrom_count es 0 i e hget (by rw [hkind]; intro hx; cases hx)
    simpa using this
  · intro p hp hpi
    by_contra hne
    obtain ⟨dp, dc, hdp, hdc, hdpid, hlt⟩ :=
      heredTs_kid_facts (transformTreeData es) (transform_hered_bothLt es)
        p hp hne
    obtain ⟨jp, ep, hgetp, hnep, hidp, hlevp, _⟩ := collect_mem_facts es dp hdp
    obtain ⟨jc, ec, hgetc, hnec, hidc, hlevc, _⟩ := collect_mem_facts es dc hdc
    have hjpi : jp = i := by omega
    rw [hjpi, hget] at hgetp
    cases hgetp
    simp only [bothLt, Bool.and_eq_true, decide_eq_true_eq] at hlt
    obtain ⟨hlt1, hlt2⟩ := hlt
    have hcj : i < jc := by omega
    have hle := hafter jc ec hgetc hcj
    omega

/-- Witness for C2: two sibling `call_return` events at depth 0; the first
produces exactly one node with no children. -/
theorem call_return_single_childless_witness :
    ([mkEv EvKind.callReturn "x" 0, mkEv EvKind.callReturn "y" 0].get? 0
      = some (mkEv EvKind.callReturn "x" 0)) ∧
    (mkEv EvKind.callReturn "x" 0).event = EvKind.callReturn ∧
    (((collectTs (transformTreeData [mkEv EvKind.callReturn "x" 0,
        mkEv EvKind.callReturn "y" 0])).map NodeData.id).count 0 = 1 ∧
      ∀ p ∈ kidCountTs (transformTreeData [mkEv EvKind.callReturn "x" 0,
        mkEv EvKind.callReturn "y" 0]), p.1 = 0 → p.2 = 0) := by
  have hafter : ∀ j e', [mkEv EvKind.callReturn "x" 0,
      mkEv EvKind.callReturn "y" 0].get? j = some e' → 0 < j →
      e'.depth ≤ (mkEv EvKind.callReturn "x" 0).depth := by
    intro j e' hgj hij
    cases j with
    | zero => omega
    | succ j' =>
      cases j' with
      | zero =>
        simp only [List.get?] at hgj
        cases hgj
        exact Nat.le_refl _
      | succ j'' => simp [List.get?] at hgj
  exact ⟨rfl, rfl, call_return_single_childless _ 0 _ rfl rfl hafter⟩

end TPTree
